import Mathlib

set_option maxHeartbeats 1000000

/-!
Shallow embedding of the expense tracker core found in
src/course project 1/project 1 .py.

Modelling conventions:
* Python machine floats are modelled as exact rationals; every amount the
  program manipulates in the claims is an exact decimal value.
* Python strings are modelled as Lean String, or as List Char where the
  csv layer works character by character.
* The csv module (default dialect: delimiter comma, QUOTE_MINIMAL,
  lineterminator CRLF) is modelled by an explicit reader state machine
  runCsv and a writer writeRecordC.
* I/O failure of a write is modelled by an injected Bool flag, since it
  depends only on the host file system.
-/

/-- Characters that force csv QUOTE_MINIMAL quoting of a field. -/
def isSpecialC (c : Char) : Bool :=
  c = ',' || c = '"' || c = '\n' || c = '\r'

/-- True when csv.DictWriter would quote the field. -/
def needsQuoteC (f : List Char) : Bool :=
  f.any isSpecialC

/-- Doubling of quote characters inside a quoted csv field. -/
def escapeQ : List Char → List Char
  | [] => []
  | c :: r => if c = '"' then '"' :: '"' :: escapeQ r else c :: escapeQ r

/-- Serialization of one csv field, QUOTE_MINIMAL. -/
def quoteFieldC (f : List Char) : List Char :=
  if needsQuoteC f then '"' :: (escapeQ f ++ ['"']) else f

/-- Serialization of one csv record, fields joined by commas, CRLF terminator
(the csv.writer default lineterminator). -/
def writeRecordC : List (List Char) → List Char
  | [] => ['\r', '\n']
  | [f] => quoteFieldC f ++ ['\r', '\n']
  | f :: g :: t => quoteFieldC f ++ ',' :: writeRecordC (g :: t)

/-- Serialization of a record sequence: concatenation of the records. -/
def serializeRecsC : List (List (List Char)) → List Char
  | [] => []
  | r :: rs => writeRecordC r ++ serializeRecsC rs

/-- Reader states of the csv state machine: start of record, start of a
later field, inside an unquoted field, inside a quoted field. -/
inductive CsvMode where
  | sr
  | sf
  | fld
  | quo
deriving DecidableEq

/-- Drop one linefeed directly after a carriage return (CRLF handling). -/
def chompLF (r : List Char) : List Char :=
  if r.head? = some '\n' then r.tail else r

/-- Csv reader over a raw character stream, modelling csv.reader with the
default dialect: record separators CRLF, LF or CR; a quote opens a quoted
field only at field start; inside quotes a doubled quote is a literal
quote; after a closing quote the reader continues the field unquoted
(non strict mode); a blank line yields the empty record. -/
def runCsv (m : CsvMode) (cur : List Char) (fs : List (List Char)) :
    List Char → List (List (List Char))
  | [] =>
    match m with
    | .sr => []
    | .sf => [fs ++ [[]]]
    | .fld => [fs ++ [cur]]
    | .quo => [fs ++ [cur]]
  | c :: r =>
    match m with
    | .quo =>
      if c = '"' then
        if r.head? = some '"' then runCsv .quo (cur ++ ['"']) fs r.tail
        else runCsv .fld cur fs r
      else runCsv .quo (cur ++ [c]) fs r
    | .fld =>
      if c = '\r' then (fs ++ [cur]) :: runCsv .sr [] [] (chompLF r)
      else if c = '\n' then (fs ++ [cur]) :: runCsv .sr [] [] r
      else if c = ',' then runCsv .sf [] (fs ++ [cur]) r
      else runCsv .fld (cur ++ [c]) fs r
    | .sf =>
      if c = '\r' then (fs ++ [[]]) :: runCsv .sr [] [] (chompLF r)
      else if c = '\n' then (fs ++ [[]]) :: runCsv .sr [] [] r
      else if c = ',' then runCsv .sf [] (fs ++ [[]]) r
      else if c = '"' then runCsv .quo [] fs r
      else runCsv .fld [c] fs r
    | .sr =>
      if c = '\r' then [] :: runCsv .sr [] [] (chompLF r)
      else if c = '\n' then [] :: runCsv .sr [] [] r
      else if c = ',' then runCsv .sf [] [[]] r
      else if c = '"' then runCsv .quo [] [] r
      else runCsv .fld [c] [] r
termination_by l => l.length
decreasing_by
  all_goals simp only [chompLF, List.length_cons]
  all_goals try split
  all_goals try simp only [List.length_tail]
  all_goals omega

/-- Parse a whole csv character stream into records. -/
def parseCsvC (cs : List Char) : List (List (List Char)) :=
  runCsv .sr [] [] cs

/-- Decimal digit character for a value below ten. -/
def digitChar : ℕ → Char
  | 0 => '0'
  | 1 => '1'
  | 2 => '2'
  | 3 => '3'
  | 4 => '4'
  | 5 => '5'
  | 6 => '6'
  | 7 => '7'
  | 8 => '8'
  | 9 => '9'
  | _ => '?'

/-- Decimal digits of a natural number, most significant first. -/
def natToDigits (n : ℕ) : List Char :=
  if _h : n < 10 then [digitChar n]
  else natToDigits (n / 10) ++ [digitChar (n % 10)]
termination_by n
decreasing_by exact Nat.div_lt_self (by omega) (by omega)

/-- Numeric value of a decimal digit string (int on an all digit string). -/
def digitsVal (cs : List Char) : ℕ :=
  cs.foldl (fun a c => a * 10 + (c.toNat - 48)) 0

/-- Digits of n, zero padded on the left to width k. -/
def padDigits (k n : ℕ) : List Char :=
  List.replicate (k - (natToDigits n).length) '0' ++ natToDigits n

/-- Rationals that admit an exact decimal representation with at most den
digits after the point. Every value of a Python binary float satisfies
this, because a float is m / 2 ^ e and 2 ^ e divides 10 ^ (2 ^ e). -/
def isPyDecimal (q : ℚ) : Prop :=
  q.den ∣ 10 ^ q.den

instance (q : ℚ) : Decidable (isPyDecimal q) := by
  unfold isPyDecimal; infer_instance

/-- Decimal rendering of a positive float value, modelling str(float):
an integer part, a point, and at least one fraction digit. The fraction
is printed with q.den digits, which is exact whenever isPyDecimal q
holds; only the round trip property matters, not the digit count, since
the spec ignores storage internal formatting. -/
def decStrC (q : ℚ) : List Char :=
  let k := q.den
  let N := q.num.toNat * 10 ^ k / q.den
  natToDigits (N / 10 ^ k) ++ '.' :: padDigits k (N % 10 ^ k)

/-- Parse an unsigned decimal literal: digits, an optional point, fraction
digits; at least one digit overall. Models the decimal subset of the
Python float constructor (exponents, inf, nan, underscores and
surrounding whitespace are outside the stored data this model handles). -/
def parsePosC (cs : List Char) : Option ℚ :=
  let ip := cs.takeWhile Char.isDigit
  let rest := cs.dropWhile Char.isDigit
  match rest with
  | [] => if ip.isEmpty then none else some ((digitsVal ip : ℚ))
  | '.' :: frac =>
    if frac.all Char.isDigit && !(ip.isEmpty && frac.isEmpty) then
      some ((digitsVal ip : ℚ) + (digitsVal frac : ℚ) / (10 : ℚ) ^ frac.length)
    else none
  | _ => none

/-- Parse a float literal with optional sign; models float(raw). -/
def parseFloatC (cs : List Char) : Option ℚ :=
  match cs with
  | [] => none
  | c :: rest =>
    if c = '-' then (parsePosC rest).map (fun q => -q)
    else if c = '+' then parsePosC rest
    else parsePosC cs

/-- Split a character list at every dash, keeping empty groups. -/
def splitDash : List Char → List (List Char)
  | [] => [[]]
  | c :: r =>
    if c = '-' then [] :: splitDash r
    else
      match splitDash r with
      | g :: gs => (c :: g) :: gs
      | [] => [[c]]

/-- Proleptic Gregorian leap year rule used by datetime. -/
def isLeap (y : ℕ) : Bool :=
  y % 4 = 0 && (!(y % 100 = 0) || y % 400 = 0)

/-- Days in a month, as validated by the datetime constructor. -/
def daysInMonth (y m : ℕ) : ℕ :=
  if m = 2 then (if isLeap y then 29 else 28)
  else if m = 4 || m = 6 || m = 9 || m = 11 then 30
  else 31

/-- Model of datetime.strptime(s, percentY-percentm-percentd) succeeding:
a four digit year of at least 1, a one or two digit month 1..12, a one or
two digit day 1..31 that exists in the month, nothing left over. This is
exactly the regular expression strptime builds for that format plus the
datetime range checks. -/
def validDate (cs : List Char) : Bool :=
  match splitDash cs with
  | [ys, ms, ds] =>
    decide (ys.length = 4) && ys.all Char.isDigit &&
    ms.all Char.isDigit && (decide (ms.length = 1) || decide (ms.length = 2)) &&
    ds.all Char.isDigit && (decide (ds.length = 1) || decide (ds.length = 2)) &&
    decide (1 ≤ digitsVal ys) &&
    decide (1 ≤ digitsVal ms) && decide (digitsVal ms ≤ 12) &&
    decide (1 ≤ digitsVal ds) &&
    decide (digitsVal ds ≤ daysInMonth (digitsVal ys) (digitsVal ms))
  | _ => false

/-- The Expense dataclass: date, category, amount, description. -/
structure Expense where
  date : String
  category : String
  amount : ℚ
  description : String
deriving DecidableEq

/-- Validated construction of an Expense, modelling the dataclass
constructor running post init: it raises (returns none) unless the
amount is positive, then unless the date parses as percentY-percentm-percentd;
on success the stored fields are exactly the inputs. -/
def mkExpense (date category : String) (amount : ℚ) (description : String) :
    Option Expense :=
  if amount ≤ 0 then none
  else if validDate date.data then some ⟨date, category, amount, description⟩
  else none

/-- Header row written by save_expenses (fieldnames list). -/
def csvHeader : List (List Char) :=
  ["date".data, "category".data, "amount".data, "description".data]

/-- Record written for one expense: to_dict followed by DictWriter.writerow;
the float amount is rendered by str. -/
def expenseToRow (e : Expense) : List (List Char) :=
  [e.date.data, e.category.data, decStrC e.amount, e.description.data]

/-- File content produced by save_expenses: the file is opened in write
mode, which truncates it; on an empty list the method returns before the
header is written, leaving the file empty; otherwise header plus rows. -/
def save_expensesContent (es : List Expense) : List Char :=
  if es.isEmpty then []
  else serializeRecsC (csvHeader :: es.map expenseToRow)

/-- Failure classes of one loaded row: skip is the ValueError / KeyError
class caught inside the row loop (row skipped with one warning); abort is
any other exception, caught only by the outer handler, which ends the
whole load keeping the rows read so far. -/
inductive LoadErr where
  | skip
  | abort
deriving DecidableEq

/-- Projection of a row result to its expense, if any. -/
def okOf : Except LoadErr Expense → Option Expense
  | .ok e => some e
  | .error _ => none

/-- DictReader cell lookup: none models a KeyError (key absent from the
fieldnames), some none models a missing trailing cell filled with the
restval None, some (some v) is a present cell. -/
def dget (header row : List (List Char)) (key : List Char) :
    Option (Option (List Char)) :=
  match header.findIdx? (fun f => f = key) with
  | none => none
  | some i => some (row.get? i)

/-- Conversion of one DictReader row into an Expense, following the body
of the load_expenses loop in evaluation order: the date, category and
amount cells are fetched (KeyError skips the row), float(amount) runs
(TypeError on a None cell aborts the load, ValueError skips the row), the
description cell is fetched, then the dataclass validation runs: a non
positive amount skips, strptime on a None date aborts (TypeError), an
invalid date skips. DictReader fills a missing category or description
with None, which the dataclass stores untouched; such rows sit outside
every table the claims quantify over and are modelled with an empty
string. -/
def rowToExpense (header row : List (List Char)) : Except LoadErr Expense :=
  match dget header row "date".data with
  | none => .error .skip
  | some dateO =>
    match dget header row "category".data with
    | none => .error .skip
    | some catO =>
      match dget header row "amount".data with
      | none => .error .skip
      | some amtO =>
        match amtO with
        | none => .error .abort
        | some amtS =>
          match parseFloatC amtS with
          | none => .error .skip
          | some amt =>
            match dget header row "description".data with
            | none => .error .skip
            | some descO =>
              if amt ≤ 0 then .error .skip
              else
                match dateO with
                | none => .error .abort
                | some dateS =>
                  match mkExpense (String.mk dateS) (String.mk (catO.getD []))
                      amt (String.mk (descO.getD [])) with
                  | some e => .ok e
                  | none => .error .skip

instance : DecidableEq (Except LoadErr Expense) := fun a b =>
  match a, b with
  | .ok x, .ok y => if h : x = y then .isTrue (by rw [h]) else .isFalse (by simp [h])
  | .error x, .error y => if h : x = y then .isTrue (by rw [h]) else .isFalse (by simp [h])
  | .ok _, .error _ => .isFalse (by simp)
  | .error _, .ok _ => .isFalse (by simp)

/-- The row loop of load_expenses over the parsed records after the
header: DictReader silently drops blank records; each remaining row
yields an expense, a skipped-row warning, or aborts the load keeping
what was read. Result: expenses in order, warning count, abort flag. -/
def processRows (header : List (List Char)) :
    List (List (List Char)) → List Expense × ℕ × Bool
  | [] => ([], 0, false)
  | row :: rest =>
    if row = [] then processRows header rest
    else
      match rowToExpense header row with
      | .ok e =>
        let r := processRows header rest
        (e :: r.1, r.2.1, r.2.2)
      | .error .skip =>
        let r := processRows header rest
        (r.1, r.2.1 + 1, r.2.2)
      | .error .abort => ([], 0, true)

/-- load_expenses on a present file: the first record is the DictReader
fieldnames row, the remaining records are processed by the row loop; an
empty file has no fieldnames and yields no rows. -/
def loadExpensesC (cs : List Char) : List Expense × ℕ × Bool :=
  match parseCsvC cs with
  | [] => ([], 0, false)
  | header :: rows => processRows header rows

/-- load_expenses: a missing file returns the empty list (first run). -/
def load_expenses : Option (List Char) → List Expense × ℕ × Bool
  | none => ([], 0, false)
  | some cs => loadExpensesC cs

/-- Configuration file states: absent, unreadable or malformed json, or a
parsed json object whose monthly budget key holds a number or is absent. -/
inductive ConfigFile where
  | absent
  | malformed
  | parsed (mb : Option ℚ)
deriving DecidableEq

/-- load_config: an absent or unreadable file yields the default object
with monthly budget 0; a parsed file is returned exactly as stored, with
no validation of the value. -/
def load_config : ConfigFile → Option ℚ
  | .absent => some 0
  | .malformed => some 0
  | .parsed mb => mb

/-- config.get of the monthly budget with default 0. -/
def getBudget (cfg : Option ℚ) : ℚ :=
  cfg.getD 0

/-- One iteration of set_budget on a raw input: an unparsable or negative
input leaves the configuration unchanged (the loop reprompts), otherwise
the monthly budget key is set to the parsed value. -/
def set_budget (cfg : Option ℚ) (raw : String) : Option ℚ :=
  match parseFloatC raw.data with
  | none => cfg
  | some b => if b < 0 then cfg else some b

/-- get_valid_amount on one raw input: the parsed value when it is a
number strictly greater than 0, otherwise the loop reprompts (none). -/
def get_valid_amount (raw : String) : Option ℚ :=
  match parseFloatC raw.data with
  | none => none
  | some a => if a ≤ 0 then none else some a

/-- Result of track_budget: either the distinct no-budget branch taken
when the stored budget equals 0, or the computed report. The over flag
records which print branch runs (remaining below 0). -/
inductive BudgetReport where
  | noBudget
  | report (budget spent percentUsed remaining : ℚ) (overBudget : Bool)
deriving DecidableEq

/-- track_budget: reads the budget with default 0; the zero budget branch
returns before any arithmetic; otherwise the total is summed, and the
percentage divides by the budget only under the positive budget guard. -/
def track_budget (cfg : Option ℚ) (es : List Expense) : BudgetReport :=
  let budget := getBudget cfg
  if budget = 0 then .noBudget
  else
    let total_expenses := (es.map (fun e => e.amount)).sum
    let remaining := budget - total_expenses
    let percentage_used := if 0 < budget then total_expenses / budget * 100 else 0
    .report budget total_expenses percentage_used remaining (decide (remaining < 0))

/-- Python str.lower restricted to the ascii range of the data at hand. -/
def pyLower (s : String) : String :=
  String.mk (s.data.map Char.toLower)

/-- The category generator: yields, in order, the expenses whose lower
cased category equals the lower cased query. -/
def get_expenses_by_category (es : List Expense) (category : String) :
    List Expense :=
  match es with
  | [] => []
  | e :: rest =>
    if pyLower e.category = pyLower category then
      e :: get_expenses_by_category rest category
    else get_expenses_by_category rest category

/-- Stable descending insertion: the new element goes before the first
element whose amount does not exceed it, hence after every earlier
element of equal amount. -/
def insertDesc (e : Expense) : List Expense → List Expense
  | [] => [e]
  | x :: xs =>
    if x.amount ≤ e.amount then e :: x :: xs
    else x :: insertDesc e xs

/-- Model of sorted(expenses, key=amount, reverse=True): Python sorted is
a stable sort, and a stable sort by key is a unique function of the
input, here realised by stable insertion. -/
def sortDesc : List Expense → List Expense
  | [] => []
  | e :: xs => insertDesc e (sortDesc xs)

/-- File system snapshot: the expenses csv file and the config file. -/
structure FS where
  expensesFile : Option (List Char)
  configFile : ConfigFile
deriving DecidableEq

/-- save_expenses against the file system, with an injected failure flag
for the host write error the method catches: on failure it returns false,
on success it replaces the whole file content. -/
def save_expensesFS (es : List Expense) (fail : Bool) (fs : FS) : Bool × FS :=
  if fail then (false, fs)
  else (true, { fs with expensesFile := some (save_expensesContent es) })

/-- save_config against the file system, same failure model. -/
def save_configFS (cfg : Option ℚ) (fail : Bool) (fs : FS) : Bool × FS :=
  if fail then (false, fs)
  else (true, { fs with configFile := .parsed cfg })

/-- In-memory state owned by the tracker. -/
structure Tracker where
  expenses : List Expense
  config : Option ℚ
deriving DecidableEq

/-- save_data: writes the expenses, then the configuration (both writes
always run), succeeds only when both succeeded, and never touches the
in-memory state. -/
def save_data (t : Tracker) (failE failC : Bool) (fs : FS) :
    Bool × Tracker × FS :=
  let r1 := save_expensesFS t.expenses failE fs
  let r2 := save_configFS t.config failC r1.2
  if r1.1 && r2.1 then (true, t, r2.2) else (false, t, r2.2)

/-- load_expenses through the file system. -/
def load_expensesFS (fs : FS) : List Expense × ℕ × Bool :=
  load_expenses fs.expensesFile

/-- Tracker construction: init stores the defaults and load_data then
replaces both with the repository results. -/
def initTracker (fs : FS) : Tracker :=
  ⟨(load_expensesFS fs).1, load_config fs.configFile⟩

/-! ### Decimal digit printing and parsing -/

theorem digitChar_isDigit (n : ℕ) (h : n < 10) : (digitChar n).isDigit = true := by
  interval_cases n <;> decide

theorem digitVal_digitChar (n : ℕ) (h : n < 10) : (digitChar n).toNat - 48 = n := by
  interval_cases n <;> decide

theorem natToDigits_lt {n : ℕ} (h : n < 10) : natToDigits n = [digitChar n] := by
  rw [natToDigits]; simp [h]

theorem natToDigits_ge {n : ℕ} (h : ¬ n < 10) :
    natToDigits n = natToDigits (n / 10) ++ [digitChar (n % 10)] := by
  rw [natToDigits]; simp [h]

theorem natToDigits_ne_nil (n : ℕ) : natToDigits n ≠ [] := by
  by_cases h : n < 10
  · rw [natToDigits_lt h]; simp
  · rw [natToDigits_ge h]; simp

theorem natToDigits_digits (n : ℕ) : ∀ c ∈ natToDigits n, c.isDigit = true := by
  induction n using Nat.strong_induction_on with
  | _ n ih =>
    by_cases h : n < 10
    · rw [natToDigits_lt h]
      intro c hc
      simp at hc
      subst hc
      exact digitChar_isDigit n h
    · rw [natToDigits_ge h]
      intro c hc
      rcases List.mem_append.mp hc with h1 | h1
      · exact ih (n / 10) (Nat.div_lt_self (by omega) (by omega)) c h1
      · simp at h1
        subst h1
        exact digitChar_isDigit (n % 10) (Nat.mod_lt _ (by omega))

theorem digitsVal_go (n : ℕ) :
    ∀ acc : ℕ, List.foldl (fun a c => a * 10 + (c.toNat - 48)) acc (natToDigits n) =
      acc * 10 ^ (natToDigits n).length + n := by
  induction n using Nat.strong_induction_on with
  | _ n ih =>
    intro acc
    by_cases h : n < 10
    · rw [natToDigits_lt h]
      simp [List.foldl, digitVal_digitChar n h]
    · rw [natToDigits_ge h]
      rw [List.foldl_append]
      rw [ih (n / 10) (Nat.div_lt_self (by omega) (by omega)) acc]
      have hdm : 10 * (n / 10) + n % 10 = n := Nat.div_add_mod n 10
      simp only [List.foldl, List.length_append, List.length_cons,
        List.length_nil, digitVal_digitChar (n % 10) (Nat.mod_lt _ (by omega))]
      calc (acc * 10 ^ (natToDigits (n / 10)).length + n / 10) * 10 + n % 10
          = acc * (10 ^ (natToDigits (n / 10)).length * 10) +
              (10 * (n / 10) + n % 10) := by ring
        _ = acc * 10 ^ ((natToDigits (n / 10)).length + (0 + 1)) + n := by
            rw [hdm]; ring_nf
  

theorem digitsVal_natToDigits (n : ℕ) : digitsVal (natToDigits n) = n := by
  have h := digitsVal_go n 0
  simpa [digitsVal] using h

theorem natToDigits_length_le :
    ∀ n k : ℕ, n < 10 ^ k → 1 ≤ k → (natToDigits n).length ≤ k := by
  intro n
  induction n using Nat.strong_induction_on with
  | _ n ih =>
    intro k hn hk
    by_cases h : n < 10
    · rw [natToDigits_lt h]; simpa using hk
    · have hk2 : 2 ≤ k := by
        by_contra hlt
        push_neg at hlt
        have hk1 : k = 1 := by omega
        rw [hk1, pow_one] at hn
        omega
      rw [natToDigits_ge h]
      have hdiv : n / 10 < 10 ^ (k - 1) := by
        have h10 : (0:ℕ) < 10 := by omega
        rw [Nat.div_lt_iff_lt_mul h10]
        have : 10 ^ (k - 1) * 10 = 10 ^ k := by
          rw [← pow_succ]
          congr 1
          omega
        omega
      have hlen := ih (n / 10) (Nat.div_lt_self (by omega) (by omega)) (k - 1) hdiv (by omega)
      simp only [List.length_append, List.length_cons, List.length_nil]
      omega

theorem foldl_zeros (m : ℕ) :
    ∀ acc : ℕ, List.foldl (fun a c => a * 10 + (c.toNat - 48)) acc (List.replicate m '0') =
      acc * 10 ^ m := by
  induction m with
  | zero => intro acc; simp
  | succ m ih =>
    intro acc
    rw [List.replicate_succ]
    simp only [List.foldl]
    have h0 : ('0'.toNat - 48) = 0 := by decide
    rw [h0, ih (acc * 10 + 0)]
    ring

theorem digitsVal_padDigits (k n : ℕ) : digitsVal (padDigits k n) = n := by
  unfold padDigits digitsVal
  rw [List.foldl_append, foldl_zeros]
  have h := digitsVal_go n 0
  simpa [digitsVal] using h

theorem padDigits_length (k n : ℕ) (h : (natToDigits n).length ≤ k) :
    (padDigits k n).length = k := by
  simp only [padDigits, List.length_append, List.length_replicate]
  omega

theorem padDigits_digits (k n : ℕ) : ∀ c ∈ padDigits k n, c.isDigit = true := by
  intro c hc
  rcases List.mem_append.mp hc with h1 | h1
  · have := List.eq_of_mem_replicate h1
    subst this
    decide
  · exact natToDigits_digits n c h1

theorem takeWhile_all_append (p : Char → Bool) (A : List Char) (b : Char)
    (B : List Char) (hA : ∀ c ∈ A, p c = true) (hb : p b = false) :
    (A ++ b :: B).takeWhile p = A ∧ (A ++ b :: B).dropWhile p = b :: B := by
  induction A with
  | nil => simp [List.takeWhile_cons, List.dropWhile_cons, hb]
  | cons a A ih =>
    have ha : p a = true := hA a (by simp)
    have ih2 := ih (fun c hc => hA c (by simp [hc]))
    simp [List.takeWhile_cons, List.dropWhile_cons, ha, ih2.1, ih2.2]

theorem parseFloatC_cons (c : Char) (rest : List Char) (h1 : ¬ c = '-')
    (h2 : ¬ c = '+') : parseFloatC (c :: rest) = parsePosC (c :: rest) := by
  simp [parseFloatC, h1, h2]

theorem isDigit_ne_dash {c : Char} (h : c.isDigit = true) : ¬ c = '-' := by
  intro he
  subst he
  simp at h

theorem isDigit_ne_plus {c : Char} (h : c.isDigit = true) : ¬ c = '+' := by
  intro he
  subst he
  simp at h

theorem parseFloat_decStr (q : ℚ) (hq : 0 < q) (hd : isPyDecimal q) :
    parseFloatC (decStrC q) = some q := by
  have hkpos : 0 < q.den := q.den_pos
  set k := q.den with hk
  set n := q.num.toNat with hn
  set N := n * 10 ^ k / q.den with hN
  have hdvd : q.den ∣ 10 ^ k := hd
  have hdvd2 : q.den ∣ n * 10 ^ k := Dvd.dvd.mul_left hdvd n
  have hNq : N * q.den = n * 10 ^ k := Nat.div_mul_cancel hdvd2
  have h10 : (0:ℕ) < 10 ^ k := Nat.pos_pow_of_pos k (by omega)
  have hIP : decStrC q = natToDigits (N / 10 ^ k) ++ '.' :: padDigits k (N % 10 ^ k) := rfl
  have hIPd := natToDigits_digits (N / 10 ^ k)
  have hFRd := padDigits_digits k (N % 10 ^ k)
  have hFRlen : (padDigits k (N % 10 ^ k)).length = k := by
    apply padDigits_length
    exact natToDigits_length_le (N % 10 ^ k) k (Nat.mod_lt _ h10) (by omega)
  obtain ⟨c, t, hct⟩ := List.exists_cons_of_ne_nil (natToDigits_ne_nil (N / 10 ^ k))
  have hcd : c.isDigit = true := hIPd c (by rw [hct]; simp)
  have hsplit := takeWhile_all_append Char.isDigit (natToDigits (N / 10 ^ k)) '.'
    (padDigits k (N % 10 ^ k)) hIPd (by decide)
  have hpos : parsePosC (decStrC q) =
      some ((digitsVal (natToDigits (N / 10 ^ k)) : ℚ) +
        (digitsVal (padDigits k (N % 10 ^ k)) : ℚ) /
          (10 : ℚ) ^ (padDigits k (N % 10 ^ k)).length) := by
    rw [hIP]
    unfold parsePosC
    simp only [hsplit.1, hsplit.2]
    have hne : (natToDigits (N / 10 ^ k)).isEmpty = false := by
      rw [hct]; rfl
    rw [List.all_eq_true.mpr hFRd]
    simp [hne]
  have hchar : parseFloatC (decStrC q) = parsePosC (decStrC q) := by
    rw [hIP, hct]
    have := parseFloatC_cons c (t ++ '.' :: padDigits k (N % 10 ^ k))
      (isDigit_ne_dash hcd) (isDigit_ne_plus hcd)
    simpa using this
  rw [hchar, hpos]
  congr 1
  rw [digitsVal_natToDigits, digitsVal_padDigits, hFRlen]
  have hnum0 : (0:ℤ) < q.num := Rat.num_pos.mpr hq
  have hcastn : ((n : ℕ) : ℚ) = ((q.num : ℤ) : ℚ) := by
    rw [hn]
    exact_mod_cast congrArg (fun z => ((z : ℤ) : ℚ)) (Int.toNat_of_nonneg (le_of_lt hnum0))
  have h10Q : ((10 : ℚ)) ^ k ≠ 0 := by positivity
  have hdenQ : ((q.den : ℕ) : ℚ) ≠ 0 := by
    have : (0:ℚ) < ((q.den : ℕ) : ℚ) := by exact_mod_cast hkpos
    exact ne_of_gt this
  have hNsplit : 10 ^ k * (N / 10 ^ k) + N % 10 ^ k = N := Nat.div_add_mod N (10 ^ k)
  have hq' : q * ((q.den : ℕ) : ℚ) = ((q.num : ℤ) : ℚ) := Rat.mul_den_eq_num q
  have hc2 : ((N : ℕ) : ℚ) * ((q.den : ℕ) : ℚ) = ((n : ℕ) : ℚ) * (10 : ℚ) ^ k := by
    exact_mod_cast hNq
  have key : ((N : ℕ) : ℚ) = q * (10 : ℚ) ^ k := by
    have h3 : ((N : ℕ) : ℚ) * ((q.den : ℕ) : ℚ) =
        q * (10 : ℚ) ^ k * ((q.den : ℕ) : ℚ) := by
      rw [hc2, hcastn, ← hq']
      ring
    exact mul_right_cancel₀ hdenQ h3
  have hsplitQ : (10 : ℚ) ^ k * ((N / 10 ^ k : ℕ) : ℚ) + ((N % 10 ^ k : ℕ) : ℚ) =
      ((N : ℕ) : ℚ) := by
    exact_mod_cast hNsplit
  field_simp
  linear_combination hsplitQ + key

/-! ### Csv reader step lemmas -/

theorem runCsv_nil_sr (cur : List Char) (fs : List (List Char)) :
    runCsv .sr cur fs [] = [] := by
  simp [runCsv]

theorem runCsv_nil_sf (cur : List Char) (fs : List (List Char)) :
    runCsv .sf cur fs [] = [fs ++ [[]]] := by
  simp [runCsv]

theorem runCsv_nil_fld (cur : List Char) (fs : List (List Char)) :
    runCsv .fld cur fs [] = [fs ++ [cur]] := by
  simp [runCsv]

theorem runCsv_quo_qq (cur : List Char) (fs : List (List Char)) (r : List Char) :
    runCsv .quo cur fs ('"' :: '"' :: r) = runCsv .quo (cur ++ ['"']) fs r := by
  simp [runCsv]

theorem runCsv_quo_exit (cur : List Char) (fs : List (List Char)) (r : List Char)
    (h : r.head? ≠ some '"') :
    runCsv .quo cur fs ('"' :: r) = runCsv .fld cur fs r := by
  simp [runCsv, h]

theorem runCsv_quo_other (c : Char) (cur : List Char) (fs : List (List Char))
    (r : List Char) (h : ¬ c = '"') :
    runCsv .quo cur fs (c :: r) = runCsv .quo (cur ++ [c]) fs r := by
  simp [runCsv, h]

theorem runCsv_fld_crlf (cur : List Char) (fs : List (List Char)) (r : List Char) :
    runCsv .fld cur fs ('\r' :: '\n' :: r) = (fs ++ [cur]) :: runCsv .sr [] [] r := by
  simp [runCsv, chompLF]

theorem runCsv_fld_comma (cur : List Char) (fs : List (List Char)) (r : List Char) :
    runCsv .fld cur fs (',' :: r) = runCsv .sf [] (fs ++ [cur]) r := by
  simp [runCsv]

theorem runCsv_fld_other (c : Char) (cur : List Char) (fs : List (List Char))
    (r : List Char) (h1 : ¬ c = '\r') (h2 : ¬ c = '\n') (h3 : ¬ c = ',') :
    runCsv .fld cur fs (c :: r) = runCsv .fld (cur ++ [c]) fs r := by
  simp [runCsv, h1, h2, h3]

theorem runCsv_sf_crlf (cur : List Char) (fs : List (List Char)) (r : List Char) :
    runCsv .sf cur fs ('\r' :: '\n' :: r) = (fs ++ [[]]) :: runCsv .sr [] [] r := by
  simp [runCsv, chompLF]

theorem runCsv_sf_comma (cur : List Char) (fs : List (List Char)) (r : List Char) :
    runCsv .sf cur fs (',' :: r) = runCsv .sf [] (fs ++ [[]]) r := by
  simp [runCsv]

theorem runCsv_sf_quote (cur : List Char) (fs : List (List Char)) (r : List Char) :
    runCsv .sf cur fs ('"' :: r) = runCsv .quo [] fs r := by
  simp [runCsv]

theorem runCsv_sf_other (c : Char) (cur : List Char) (fs : List (List Char))
    (r : List Char) (h1 : ¬ c = '\r') (h2 : ¬ c = '\n') (h3 : ¬ c = ',')
    (h4 : ¬ c = '"') :
    runCsv .sf cur fs (c :: r) = runCsv .fld [c] fs r := by
  simp [runCsv, h1, h2, h3, h4]

theorem runCsv_sr_crlf (cur : List Char) (fs : List (List Char)) (r : List Char) :
    runCsv .sr cur fs ('\r' :: '\n' :: r) = [] :: runCsv .sr [] [] r := by
  simp [runCsv, chompLF]

theorem runCsv_sr_comma (cur : List Char) (fs : List (List Char)) (r : List Char) :
    runCsv .sr cur fs (',' :: r) = runCsv .sf [] [[]] r := by
  simp [runCsv]

theorem runCsv_sr_quote (cur : List Char) (fs : List (List Char)) (r : List Char) :
    runCsv .sr cur fs ('"' :: r) = runCsv .quo [] [] r := by
  simp [runCsv]

theorem runCsv_sr_other (c : Char) (cur : List Char) (fs : List (List Char))
    (r : List Char) (h1 : ¬ c = '\r') (h2 : ¬ c = '\n') (h3 : ¬ c = ',')
    (h4 : ¬ c = '"') :
    runCsv .sr cur fs (c :: r) = runCsv .fld [c] [] r := by
  simp [runCsv, h1, h2, h3, h4]

/-- Characters of the field content, seen inside an unquoted field, are
consumed into the accumulator. -/
theorem runCsv_fld_content (cs : List Char) :
    ∀ cur fs rest, (∀ c ∈ cs, isSpecialC c = false) →
      runCsv .fld cur fs (cs ++ rest) = runCsv .fld (cur ++ cs) fs rest := by
  induction cs with
  | nil => intro cur fs rest _; simp
  | cons c cs ih =>
    intro cur fs rest h
    have hc : ¬ c = ',' ∧ ¬ c = '"' ∧ ¬ c = '\n' ∧ ¬ c = '\r' := by
      simpa [isSpecialC, and_assoc] using h c (by simp)
    rw [List.cons_append, runCsv_fld_other c cur fs _ hc.2.2.2 hc.2.2.1 hc.1]
    rw [ih (cur ++ [c]) fs rest (fun d hd => h d (by simp [hd]))]
    simp

/-- A quoted field body followed by the closing quote is consumed into the
accumulator, ending in unquoted field mode. -/
theorem runCsv_quo_escape (cs : List Char) :
    ∀ cur fs rest, rest.head? ≠ some '"' →
      runCsv .quo cur fs (escapeQ cs ++ '"' :: rest) = runCsv .fld (cur ++ cs) fs rest := by
  induction cs with
  | nil =>
    intro cur fs rest h
    rw [escapeQ]
    simp only [List.nil_append]
    rw [runCsv_quo_exit cur fs rest h]
    simp
  | cons c cs ih =>
    intro cur fs rest h
    by_cases hc : c = '"'
    · subst hc
      have he : escapeQ ('"' :: cs) = '"' :: '"' :: escapeQ cs := by
        simp [escapeQ]
      rw [he, List.cons_append, List.cons_append, runCsv_quo_qq,
        ih (cur ++ ['"']) fs rest h]
      simp
    · have he : escapeQ (c :: cs) = c :: escapeQ cs := by
        simp [escapeQ, hc]
      rw [he, List.cons_append, runCsv_quo_other c cur fs _ hc,
        ih (cur ++ [c]) fs rest h]
      simp

/-- An unquoted field has no special characters. -/
theorem needsQuote_false {f : List Char} (hq : ¬ needsQuoteC f = true) :
    ∀ c ∈ f, isSpecialC c = false := by
  intro c hc
  have h0 : f.any isSpecialC = false := by
    cases hx : f.any isSpecialC
    · rfl
    · exact absurd hx hq
  have := List.any_eq_false.mp h0 c hc
  simpa using this

/-- A serialized field followed by a comma is consumed as one field. -/
theorem sf_field_comma (f : List Char) (fs : List (List Char)) (rest : List Char) :
    runCsv .sf [] fs (quoteFieldC f ++ ',' :: rest) = runCsv .sf [] (fs ++ [f]) rest := by
  by_cases hq : needsQuoteC f
  · have hqf : quoteFieldC f = '"' :: (escapeQ f ++ ['"']) := by
      simp [quoteFieldC, hq]
    rw [hqf, List.cons_append, List.append_assoc, runCsv_sf_quote]
    have h2 : (['"'] ++ ',' :: rest) = '"' :: ',' :: rest := rfl
    rw [h2, runCsv_quo_escape f [] fs (',' :: rest) (by simp), runCsv_fld_comma]
    simp
  · have hns : ∀ c ∈ f, isSpecialC c = false := needsQuote_false hq
    have hqf : quoteFieldC f = f := by
      simp [quoteFieldC, hq]
    rw [hqf]
    cases f with
    | nil => simpa using runCsv_sf_comma [] fs rest
    | cons c cs =>
      have hc : ¬ c = ',' ∧ ¬ c = '"' ∧ ¬ c = '\n' ∧ ¬ c = '\r' := by
        simpa [isSpecialC, and_assoc] using hns c (by simp)
      rw [List.cons_append, runCsv_sf_other c [] fs _ hc.2.2.2 hc.2.2.1 hc.1 hc.2.1]
      rw [runCsv_fld_content cs [c] fs (',' :: rest) (fun d hd => hns d (by simp [hd]))]
      rw [runCsv_fld_comma]
      simp

/-- A serialized field followed by CRLF ends the record. -/
theorem sf_field_crlf (f : List Char) (fs : List (List Char)) (rest : List Char) :
    runCsv .sf [] fs (quoteFieldC f ++ '\r' :: '\n' :: rest) =
      (fs ++ [f]) :: runCsv .sr [] [] rest := by
  by_cases hq : needsQuoteC f
  · have hqf : quoteFieldC f = '"' :: (escapeQ f ++ ['"']) := by
      simp [quoteFieldC, hq]
    rw [hqf, List.cons_append, List.append_assoc, runCsv_sf_quote]
    have h2 : (['"'] ++ '\r' :: '\n' :: rest) = '"' :: '\r' :: '\n' :: rest := rfl
    rw [h2, runCsv_quo_escape f [] fs ('\r' :: '\n' :: rest) (by simp), runCsv_fld_crlf]
    simp
  · have hns : ∀ c ∈ f, isSpecialC c = false := needsQuote_false hq
    have hqf : quoteFieldC f = f := by
      simp [quoteFieldC, hq]
    rw [hqf]
    cases f with
    | nil => simpa using runCsv_sf_crlf [] fs rest
    | cons c cs =>
      have hc : ¬ c = ',' ∧ ¬ c = '"' ∧ ¬ c = '\n' ∧ ¬ c = '\r' := by
        simpa [isSpecialC, and_assoc] using hns c (by simp)
      rw [List.cons_append, runCsv_sf_other c [] fs _ hc.2.2.2 hc.2.2.1 hc.1 hc.2.1]
      rw [runCsv_fld_content cs [c] fs ('\r' :: '\n' :: rest)
        (fun d hd => hns d (by simp [hd]))]
      rw [runCsv_fld_crlf]
      simp

/-- A serialized record, read from the start-of-field state, is parsed back
to its field list. -/
theorem sf_record : ∀ fields : List (List Char), fields ≠ [] →
    ∀ (fs : List (List Char)) (rest : List Char),
      runCsv .sf [] fs (writeRecordC fields ++ rest) =
        (fs ++ fields) :: runCsv .sr [] [] rest := by
  intro fields
  induction fields with
  | nil => intro h; exact absurd rfl h
  | cons f t ih =>
    intro _ fs rest
    cases t with
    | nil =>
      have hw : writeRecordC [f] ++ rest = quoteFieldC f ++ '\r' :: '\n' :: rest := by
        show (quoteFieldC f ++ ['\r', '\n']) ++ rest = _
        simp
      rw [hw, sf_field_crlf]
    | cons g t2 =>
      have hw : writeRecordC (f :: g :: t2) ++ rest =
          quoteFieldC f ++ ',' :: (writeRecordC (g :: t2) ++ rest) := by
        show (quoteFieldC f ++ ',' :: writeRecordC (g :: t2)) ++ rest = _
        simp
      rw [hw, sf_field_comma, ih (by simp) (fs ++ [f]) rest]
      simp

/-- On any character other than a record separator, the start-of-record
state behaves as the start-of-field state with an empty record. -/
theorem runCsv_sr_eq_sf (c : Char) (r cur : List Char) (fs : List (List Char))
    (h1 : ¬ c = '\r') (h2 : ¬ c = '\n') :
    runCsv .sr cur fs (c :: r) = runCsv .sf [] [] (c :: r) := by
  by_cases h3 : c = ','
  · subst h3
    rw [runCsv_sr_comma, runCsv_sf_comma]
    simp
  · by_cases h4 : c = '"'
    · subst h4
      rw [runCsv_sr_quote, runCsv_sf_quote]
    · rw [runCsv_sr_other c cur fs r h1 h2 h3 h4,
        runCsv_sf_other c [] [] r h1 h2 h3 h4]

theorem sr_record_aux (fields : List (List Char)) (hne : fields ≠ [])
    (rest : List Char) (c : Char) (s : List Char)
    (hcs : writeRecordC fields ++ rest = c :: s)
    (h1 : ¬ c = '\r') (h2 : ¬ c = '\n') :
    runCsv .sr [] [] (writeRecordC fields ++ rest) =
      fields :: runCsv .sr [] [] rest := by
  rw [hcs, runCsv_sr_eq_sf c s [] [] h1 h2, ← hcs, sf_record fields hne [] rest]
  simp

/-- A serialized record, read from the start-of-record state, is parsed
back to its field list, except for the single-empty-field record, which
the writer renders as a blank line. -/
theorem sr_record (fields : List (List Char)) (h : fields ≠ [[]])
    (rest : List Char) :
    runCsv .sr [] [] (writeRecordC fields ++ rest) =
      fields :: runCsv .sr [] [] rest := by
  cases fields with
  | nil =>
    have hw : writeRecordC [] ++ rest = '\r' :: '\n' :: rest := rfl
    rw [hw, runCsv_sr_crlf]
  | cons f t =>
    by_cases hq : needsQuoteC f
    · obtain ⟨Z, hZ⟩ : ∃ Z, writeRecordC (f :: t) = quoteFieldC f ++ Z := by
        cases t with
        | nil => exact ⟨['\r', '\n'], rfl⟩
        | cons g t2 => exact ⟨',' :: writeRecordC (g :: t2), rfl⟩
      have hw : quoteFieldC f = '"' :: (escapeQ f ++ ['"']) := by
        simp [quoteFieldC, hq]
      apply sr_record_aux (f :: t) (by simp) rest '"' (escapeQ f ++ ['"'] ++ Z ++ rest)
        ?_ (by decide) (by decide)
      rw [hZ, hw]
      simp
    · cases f with
      | nil =>
        cases t with
        | nil => exact absurd rfl h
        | cons g t2 =>
          apply sr_record_aux ([] :: g :: t2) (by simp) rest ','
            (writeRecordC (g :: t2) ++ rest) ?_ (by decide) (by decide)
          show (quoteFieldC [] ++ ',' :: writeRecordC (g :: t2)) ++ rest = _
          have hnil : quoteFieldC [] = [] := by decide
          rw [hnil]
          simp
      | cons c cs =>
        have hns : ∀ d ∈ (c :: cs), isSpecialC d = false := needsQuote_false hq
        have hc : ¬ c = ',' ∧ ¬ c = '"' ∧ ¬ c = '\n' ∧ ¬ c = '\r' := by
          simpa [isSpecialC, and_assoc] using hns c (by simp)
        obtain ⟨Z, hZ⟩ : ∃ Z, writeRecordC ((c :: cs) :: t) = quoteFieldC (c :: cs) ++ Z := by
          cases t with
          | nil => exact ⟨['\r', '\n'], rfl⟩
          | cons g t2 => exact ⟨',' :: writeRecordC (g :: t2), rfl⟩
        have hqf : quoteFieldC (c :: cs) = c :: cs := by
          simp [quoteFieldC, hq]
        apply sr_record_aux ((c :: cs) :: t) (by simp) rest c (cs ++ Z ++ rest)
          ?_ hc.2.2.2 hc.2.2.1
        rw [hZ, hqf]
        simp

/-- Round trip of the csv layer: parsing a serialized record sequence
recovers the records, for records other than the single-empty-field one. -/
theorem parseCsv_serialize (rs : List (List (List Char)))
    (h : ∀ r ∈ rs, r ≠ [[]]) :
    runCsv .sr [] [] (serializeRecsC rs) = rs := by
  induction rs with
  | nil => exact runCsv_nil_sr [] []
  | cons r rs ih =>
    rw [serializeRecsC, sr_record r (h r (by simp)), ih (fun x hx => h x (by simp [hx]))]

/-! ### Load after save -/

theorem data_mk (l : List Char) : (String.mk l).data = l := rfl

theorem mk_data (s : String) : String.mk s.data = s := rfl

theorem dget_row4_date (a b c d : List Char) :
    dget csvHeader [a, b, c, d] ['d', 'a', 't', 'e'] = some (some a) := rfl

theorem dget_row4_category (a b c d : List Char) :
    dget csvHeader [a, b, c, d] ['c', 'a', 't', 'e', 'g', 'o', 'r', 'y'] = some (some b) := rfl

theorem dget_row4_amount (a b c d : List Char) :
    dget csvHeader [a, b, c, d] ['a', 'm', 'o', 'u', 'n', 't'] = some (some c) := rfl

theorem dget_row4_description (a b c d : List Char) :
    dget csvHeader [a, b, c, d] ['d', 'e', 's', 'c', 'r', 'i', 'p', 't', 'i', 'o', 'n'] = some (some d) := rfl

/-- A row written for a valid expense loads back to exactly that expense. -/
theorem rowToExpense_expenseToRow (e : Expense) (hamt : 0 < e.amount)
    (hdate : validDate e.date.data = true) (hdec : isPyDecimal e.amount) :
    rowToExpense csvHeader (expenseToRow e) = .ok e := by
  have hpf : parseFloatC (decStrC e.amount) = some e.amount :=
    parseFloat_decStr e.amount hamt hdec
  have hneg : ¬ e.amount ≤ 0 := not_le.mpr hamt
  show rowToExpense csvHeader
    [e.date.data, e.category.data, decStrC e.amount, e.description.data] = .ok e
  simp only [rowToExpense, dget_row4_date, dget_row4_category, dget_row4_amount,
    dget_row4_description, hpf, Option.getD_some]
  rw [if_neg hneg]
  simp only [mkExpense, data_mk]
  rw [if_neg hneg, if_pos hdate]

theorem expenseToRow_ne_nil (e : Expense) : expenseToRow e ≠ [] := by
  simp [expenseToRow]

theorem processRows_map (es : List Expense)
    (h : ∀ e ∈ es, 0 < e.amount ∧ validDate e.date.data = true ∧ isPyDecimal e.amount) :
    processRows csvHeader (es.map expenseToRow) = (es, 0, false) := by
  induction es with
  | nil => rfl
  | cons e es ih =>
    have he := h e (by simp)
    have hrow := rowToExpense_expenseToRow e he.1 he.2.1 he.2.2
    simp only [List.map_cons, processRows, if_neg (expenseToRow_ne_nil e), hrow,
      ih (fun x hx => h x (by simp [hx]))]

theorem loadExpensesC_save (es : List Expense)
    (h : ∀ e ∈ es, 0 < e.amount ∧ validDate e.date.data = true ∧ isPyDecimal e.amount) :
    loadExpensesC (save_expensesContent es) = (es, 0, false) := by
  cases es with
  | nil =>
    have h0 : save_expensesContent [] = [] := rfl
    rw [h0]
    unfold loadExpensesC parseCsvC
    rw [runCsv_nil_sr]
  | cons e es2 =>
    have h0 : save_expensesContent (e :: es2) =
        serializeRecsC (csvHeader :: (e :: es2).map expenseToRow) := by
      simp [save_expensesContent]
    rw [h0]
    unfold loadExpensesC parseCsvC
    rw [parseCsv_serialize]
    · exact processRows_map (e :: es2) h
    · intro r hr
      rcases List.mem_cons.mp hr with h1 | h1
      · subst h1; decide
      · obtain ⟨x, _, hxr⟩ := List.mem_map.mp h1
        rw [← hxr]
        simp [expenseToRow]

theorem rowToExpense_nil_abort : rowToExpense csvHeader [] = .error .abort := rfl

theorem okOf_isSome_elim (r : List (List Char))
    (h : (okOf (rowToExpense csvHeader r)).isSome = true) :
    ∃ e, rowToExpense csvHeader r = .ok e := by
  cases hx : rowToExpense csvHeader r with
  | ok e => exact ⟨e, rfl⟩
  | error err =>
    rw [hx] at h
    simp [okOf] at h

theorem row_ne_nil_of_ok {r : List (List Char)} {e : Expense}
    (h : rowToExpense csvHeader r = .ok e) : r ≠ [] := by
  intro h0
  subst h0
  rw [rowToExpense_nil_abort] at h
  exact absurd h (by simp)

theorem row_ne_nil_of_skip {r : List (List Char)}
    (h : rowToExpense csvHeader r = .error .skip) : r ≠ [] := by
  intro h0
  subst h0
  rw [rowToExpense_nil_abort] at h
  simp at h

theorem processRows_all_ok (rows : List (List (List Char)))
    (h : ∀ r ∈ rows, (okOf (rowToExpense csvHeader r)).isSome = true) :
    processRows csvHeader rows =
      (rows.filterMap (fun r => okOf (rowToExpense csvHeader r)), 0, false) := by
  induction rows with
  | nil => rfl
  | cons r rows ih =>
    obtain ⟨e, he⟩ := okOf_isSome_elim r (h r (by simp))
    have hne : r ≠ [] := row_ne_nil_of_ok he
    simp only [processRows, if_neg hne, he, List.filterMap_cons,
      ih (fun x hx => h x (by simp [hx]))]
    simp [okOf, he]

theorem processRows_one_bad (pre post : List (List (List Char)))
    (bad : List (List Char))
    (hok : ∀ r ∈ pre ++ post, (okOf (rowToExpense csvHeader r)).isSome = true)
    (hbad : rowToExpense csvHeader bad = .error .skip) :
    processRows csvHeader (pre ++ bad :: post) =
      ((pre ++ post).filterMap (fun r => okOf (rowToExpense csvHeader r)), 1, false) := by
  induction pre with
  | nil =>
    have hbne : bad ≠ [] := row_ne_nil_of_skip hbad
    simp only [List.nil_append, processRows, if_neg hbne, hbad]
    rw [processRows_all_ok post (by simpa using hok)]
  | cons r pre ih =>
    obtain ⟨e, he⟩ := okOf_isSome_elim r (hok r (by simp))
    have hne : r ≠ [] := row_ne_nil_of_ok he
    simp only [List.cons_append, processRows, if_neg hne, he]
    simp only [List.append_eq]
    rw [ih (fun x hx => hok x (by simp [List.mem_append] at hx ⊢; tauto))]
    simp [List.filterMap_cons, okOf, he]

/-! ### Stable descending sort -/

theorem insertDesc_perm (e : Expense) (l : List Expense) :
    List.Perm (insertDesc e l) (e :: l) := by
  induction l with
  | nil => exact List.Perm.refl [e]
  | cons x xs ih =>
    by_cases h : x.amount ≤ e.amount
    · simp only [insertDesc, if_pos h]
      exact List.Perm.refl _
    · simp only [insertDesc, if_neg h]
      exact List.Perm.trans (List.Perm.cons x ih) (List.Perm.swap e x xs)

theorem sortDesc_perm (es : List Expense) : List.Perm (sortDesc es) es := by
  induction es with
  | nil => exact List.Perm.refl []
  | cons e es ih =>
    exact List.Perm.trans (insertDesc_perm e (sortDesc es)) (List.Perm.cons e ih)

theorem mem_insertDesc {a e : Expense} {l : List Expense}
    (h : a ∈ insertDesc e l) : a = e ∨ a ∈ l := by
  induction l with
  | nil => simpa [insertDesc] using h
  | cons x xs ih =>
    by_cases hc : x.amount ≤ e.amount
    · simp only [insertDesc, if_pos hc, List.mem_cons] at h
      rcases h with h | h
      · left; exact h
      · right; simpa [List.mem_cons] using h
    · simp only [insertDesc, if_neg hc, List.mem_cons] at h
      rcases h with h | h
      · right; simp [h]
      · rcases ih h with h2 | h2
        · left; exact h2
        · right; simp [h2]

theorem pairwise_insertDesc (e : Expense) (l : List Expense)
    (h : List.Pairwise (fun a b => b.amount ≤ a.amount) l) :
    List.Pairwise (fun a b => b.amount ≤ a.amount) (insertDesc e l) := by
  induction l with
  | nil => simp [insertDesc]
  | cons x xs ih =>
    rcases List.pairwise_cons.mp h with ⟨hx, hxs⟩
    by_cases hc : x.amount ≤ e.amount
    · simp only [insertDesc, if_pos hc]
      refine List.Pairwise.cons ?_ h
      intro b hb
      rcases List.mem_cons.mp hb with h1 | h1
      · subst h1; exact hc
      · exact le_trans (hx b h1) hc
    · simp only [insertDesc, if_neg hc]
      refine List.Pairwise.cons ?_ (ih hxs)
      intro b hb
      rcases mem_insertDesc hb with h1 | h1
      · subst h1; exact le_of_lt (lt_of_not_le hc)
      · exact hx b h1

theorem sortDesc_sorted (es : List Expense) :
    List.Pairwise (fun a b => b.amount ≤ a.amount) (sortDesc es) := by
  induction es with
  | nil => exact List.Pairwise.nil
  | cons e es ih => exact pairwise_insertDesc e (sortDesc es) ih

theorem filter_insertDesc (q : ℚ) (e : Expense) (l : List Expense) :
    (insertDesc e l).filter (fun x => decide (x.amount = q)) =
      if e.amount = q then e :: l.filter (fun x => decide (x.amount = q))
      else l.filter (fun x => decide (x.amount = q)) := by
  induction l with
  | nil => by_cases h : e.amount = q <;> simp [insertDesc, List.filter_cons, h]
  | cons x xs ih =>
    by_cases hc : x.amount ≤ e.amount
    · simp only [insertDesc, if_pos hc]
      by_cases he : e.amount = q <;> simp [List.filter_cons, he]
    · simp only [insertDesc, if_neg hc, List.filter_cons]
      by_cases hx : x.amount = q
      · by_cases he : e.amount = q
        · exact absurd (le_of_eq (by rw [hx, he])) hc
        · simp [hx, he, ih]
      · simp [hx, ih]

theorem sortDesc_stable (es : List Expense) (q : ℚ) :
    (sortDesc es).filter (fun x => decide (x.amount = q)) =
      es.filter (fun x => decide (x.amount = q)) := by
  induction es with
  | nil => rfl
  | cons e es ih =>
    show (insertDesc e (sortDesc es)).filter _ = _
    rw [filter_insertDesc]
    by_cases he : e.amount = q
    · simp [List.filter_cons, he, ih]
    · simp [List.filter_cons, he, ih]

theorem rowToExpense_blank_abort : rowToExpense csvHeader [[]] = .error .abort := rfl

theorem row_ne_blank_of_ok {r : List (List Char)} {e : Expense}
    (h : rowToExpense csvHeader r = .ok e) : r ≠ [[]] := by
  intro h0
  subst h0
  rw [rowToExpense_blank_abort] at h
  exact absurd h (by simp)

theorem row_ne_blank_of_skip {r : List (List Char)}
    (h : rowToExpense csvHeader r = .error .skip) : r ≠ [[]] := by
  intro h0
  subst h0
  rw [rowToExpense_blank_abort] at h
  simp at h

/-! ### Claims -/

/-- Claim C1, counterexample: on the empty expense sequence save_expenses
succeeds, but the file it leaves behind is empty (the method returns
before the header is written, after opening the file in truncating write
mode), not the header-only file the claim states. -/
theorem c1_counterexample :
    (save_expensesFS [] false ⟨none, .absent⟩).1 = true ∧
    (save_expensesFS [] false ⟨none, .absent⟩).2.expensesFile = some [] ∧
    ([] : List Char) ≠ writeRecordC csvHeader := by
  refine ⟨rfl, rfl, ?_⟩
  decide

/-- Claim C1, amended: for the empty expense sequence, save_expenses
succeeds and truncates the storage file to empty content: the write-mode
open truncates the file and the method returns True before the header
row is written, so the resulting file is empty, not header-only. -/
theorem c1_empty_save_truncates (fs : FS) :
    save_expensesFS [] false fs = (true, { fs with expensesFile := some [] }) := rfl

/-- Claim C2: saving any sequence of valid expenses (positive amount,
valid date, amount an exact decimal, as every float value is) and then
loading from the same storage location returns exactly the original
sequence, with no skipped-row warning and no load abort. -/
theorem c2_save_load_roundtrip (es : List Expense) (fs : FS)
    (h : ∀ e ∈ es, 0 < e.amount ∧ validDate e.date.data = true ∧ isPyDecimal e.amount) :
    load_expensesFS ((save_expensesFS es false fs).2) = (es, 0, false) := by
  show load_expenses (some (save_expensesContent es)) = (es, 0, false)
  exact loadExpensesC_save es h

/-- Claim C2 witness at a one-element sequence whose description holds a
comma, a quote and a newline, exercising the csv quoting. -/
theorem c2_witness :
    load_expensesFS ((save_expensesFS
      [⟨"2024-01-13", "Food", 25/2, "a, \"b\"\nc"⟩] false ⟨none, .absent⟩).2) =
      ([⟨"2024-01-13", "Food", 25/2, "a, \"b\"\nc"⟩], 0, false) :=
  c2_save_load_roundtrip _ _ (by
    intro e he
    simp at he
    subst he
    refine ⟨by with_unfolding_all decide, by decide, by with_unfolding_all decide⟩)

/-- Claim C3: every Expense the validated constructor returns has a
positive amount and a date that parses as a valid calendar date, and on
an invalid amount or date no Expense at all is produced. -/
theorem c3_constructor_invariant (d c : String) (a : ℚ) (ds : String) :
    (∀ e, mkExpense d c a ds = some e →
      0 < e.amount ∧ validDate e.date.data = true) ∧
    ((a ≤ 0 ∨ validDate d.data = false) → mkExpense d c a ds = none) := by
  constructor
  · intro e he
    unfold mkExpense at he
    by_cases h1 : a ≤ 0
    · rw [if_pos h1] at he; cases he
    · rw [if_neg h1] at he
      by_cases h2 : validDate d.data = true
      · rw [if_pos h2] at he
        cases he
        exact ⟨not_le.mp h1, h2⟩
      · rw [if_neg h2] at he; cases he
  · intro h
    unfold mkExpense
    by_cases h1 : a ≤ 0
    · rw [if_pos h1]
    · rw [if_neg h1]
      rcases h with h | h
      · exact absurd h h1
      · rw [if_neg (by simp [h])]

/-- Claim C3 witness: a valid construction, with both invariants read off
the constructed value. -/
theorem c3_witness :
    0 < (Expense.mk "2024-01-13" "Food" 5 "x").amount ∧
    validDate (Expense.mk "2024-01-13" "Food" 5 "x").date.data = true :=
  (c3_constructor_invariant "2024-01-13" "Food" 5 "x").1
    (Expense.mk "2024-01-13" "Food" 5 "x") (by with_unfolding_all decide)

/-- Claim C4, counterexample: load_config returns a parsed configuration
file unvalidated, so a stored negative monthly budget reaches the
in-memory configuration: after initialization against a config file
holding monthly_budget -50, the in-memory budget is negative. -/
theorem c4_counterexample :
    getBudget (initTracker ⟨none, .parsed (some (-50))⟩).config < 0 := by
  with_unfolding_all decide

/-- Claim C4, amended: the monthly budget is non-negative after
initialization from an absent or malformed config file, and set_budget
preserves non-negativity (it never stores a parsed negative value); but
load_config performs no validation, so a stored negative value yields a
negative in-memory budget. -/
theorem c4_budget_nonneg_amended :
    (∀ (cfg : Option ℚ) (raw : String),
      0 ≤ getBudget cfg → 0 ≤ getBudget (set_budget cfg raw)) ∧
    getBudget (load_config .absent) = 0 ∧ getBudget (load_config .malformed) = 0 := by
  refine ⟨?_, rfl, rfl⟩
  intro cfg raw h
  unfold set_budget
  cases hp : parseFloatC raw.data with
  | none => exact h
  | some b =>
    by_cases hb : b < 0
    · simpa [hb] using h
    · simpa [hb, getBudget] using not_lt.mp hb

/-- Claim C4 witness: one set_budget step on a negative raw input leaves
the budget non-negative. -/
theorem c4_witness : 0 ≤ getBudget (set_budget (some 5) "-3") :=
  c4_budget_nonneg_amended.1 (some 5) "-3" (by with_unfolding_all decide)

/-- Claim C5: whenever the configured budget reads as 0, track_budget
takes the authoritative zero-budget branch and returns the distinct
no-budget indicator for every expense collection; the division by the
budget sits in the other branch and is never reached. -/
theorem c5_zero_budget_no_division (cfg : Option ℚ) (es : List Expense)
    (h : getBudget cfg = 0) : track_budget cfg es = .noBudget := by
  simp [track_budget, h]

/-- Claim C5 witness at budget 0 with a non-empty expense collection. -/
theorem c5_witness :
    track_budget (some 0) [⟨"2024-01-01", "Food", 100, "x"⟩] = .noBudget :=
  c5_zero_budget_no_division (some 0) _ (by with_unfolding_all decide)

/-- Claim C6: on the three-expense scenario with budget 120, track_budget
computes spent 180, remaining -60, percent used 150, and takes the
over-budget branch. -/
theorem c6_budget_scenario :
    track_budget (some 120)
      [⟨"2024-01-01", "Food", 100, ""⟩, ⟨"2024-01-02", "Food", 50, ""⟩,
       ⟨"2024-01-03", "Transport", 30, ""⟩] =
      .report 120 180 150 (-60) true := by
  with_unfolding_all decide

/-- Claim C7: for a stored table with the standard header in which exactly
one row fails row validation (the ValueError / KeyError class the loop
catches) and every other row is valid, load_expenses returns exactly the
expenses of the valid rows in stored order, records exactly one
skipped-row warning, and does not abort the load. -/
theorem c7_one_bad_row (pre post : List (List (List Char)))
    (bad : List (List Char))
    (hok : ∀ r ∈ pre ++ post, (okOf (rowToExpense csvHeader r)).isSome = true)
    (hbad : rowToExpense csvHeader bad = .error .skip) :
    load_expenses (some (serializeRecsC (csvHeader :: (pre ++ bad :: post)))) =
      ((pre ++ post).filterMap (fun r => okOf (rowToExpense csvHeader r)), 1, false) := by
  show loadExpensesC _ = _
  unfold loadExpensesC parseCsvC
  rw [parseCsv_serialize]
  · exact processRows_one_bad pre post bad hok hbad
  · intro r hr
    rcases List.mem_cons.mp hr with h1 | h1
    · subst h1; decide
    · rcases List.mem_append.mp h1 with h2 | h2
      · obtain ⟨e, he⟩ := okOf_isSome_elim r (hok r (List.mem_append.mpr (Or.inl h2)))
        exact row_ne_blank_of_ok he
      · rcases List.mem_cons.mp h2 with h3 | h3
        · subst h3; exact row_ne_blank_of_skip hbad
        · obtain ⟨e, he⟩ := okOf_isSome_elim r (hok r (List.mem_append.mpr (Or.inr h3)))
          exact row_ne_blank_of_ok he

/-- Claim C7 witness: a three-row table whose middle row has amount abc. -/
theorem c7_witness :
    load_expenses (some (serializeRecsC (csvHeader ::
      ([["2024-01-01".data, "Food".data, "100.0".data, "l".data]] ++
        ["2024-01-02".data, "Food".data, "abc".data, "x".data] ::
        [["2024-01-03".data, "Transport".data, "30.0".data, "m".data]])))) =
      (([["2024-01-01".data, "Food".data, "100.0".data, "l".data]] ++
        [["2024-01-03".data, "Transport".data, "30.0".data, "m".data]]).filterMap
          (fun r => okOf (rowToExpense csvHeader r)), 1, false) :=
  c7_one_bad_row _ _ _ (by with_unfolding_all decide) (by with_unfolding_all decide)

/-- Claim C8: the category generator yields exactly the expenses whose
category equals the query up to lower-casing, in their original order,
and excludes all others. -/
theorem c8_filter_by_category (es : List Expense) (category : String) :
    get_expenses_by_category es category =
      es.filter (fun e => decide (pyLower e.category = pyLower category)) := by
  induction es with
  | nil => rfl
  | cons e es ih =>
    by_cases h : pyLower e.category = pyLower category
    · simp [get_expenses_by_category, List.filter_cons, h, ih]
    · simp [get_expenses_by_category, List.filter_cons, h, ih]

/-- Claim C9: the descending sort by amount returns a permutation of the
input, in descending amount order, and stably: for every amount value the
subsequence of expenses with that amount is unchanged. -/
theorem c9_sort_desc_stable (es : List Expense) :
    List.Perm (sortDesc es) es ∧
    List.Pairwise (fun a b => b.amount ≤ a.amount) (sortDesc es) ∧
    ∀ q : ℚ, (sortDesc es).filter (fun x => decide (x.amount = q)) =
      es.filter (fun x => decide (x.amount = q)) :=
  ⟨sortDesc_perm es, sortDesc_sorted es, fun q => sortDesc_stable es q⟩

/-- Claim C10: save_data succeeds exactly when both the expense write and
the config write succeed (both writes always run), and it never changes
the in-memory tracker state. -/
theorem c10_save_data (t : Tracker) (failE failC : Bool) (fs : FS) :
    ((save_data t failE failC fs).1 = true ↔
      (save_expensesFS t.expenses failE fs).1 = true ∧
      (save_configFS t.config failC (save_expensesFS t.expenses failE fs).2).1 = true) ∧
    (save_data t failE failC fs).2.1 = t := by
  cases failE <;> cases failC <;> simp [save_data, save_expensesFS, save_configFS]
